import Mathlib

/-!
Verification of the streaming-quote core of a Vue/Tauri quote viewer
(`src/App.vue`).  The component keeps a reactive `Map` from symbol to the
latest real-time quote, owns at most one WebSocket at a time, and exposes
`start` / `stop` / `subscribe` / `unsubscribe` plus a message handler and a
few pure display-formatting helpers.  We embed those pieces as explicit
state-passing functions and prove the spec's claims about them.
-/

/-- One real-time quote record, exactly the `RealTimeQuote` interface of
`App.vue`: condition codes `c`, price `p`, symbol `s`, timestamp `t`,
volume `v`, all strings on the wire. -/
structure RealTimeQuote where
  c : String
  p : String
  s : String
  t : String
  v : String
deriving DecidableEq

/-- A parsed incoming frame, after `JSON.parse` and the dispatch on the
`type` discriminator: a `"trade"` frame carries a `data` array of quote
records, an `"error"` frame carries a `msg`, and any other `type` string
falls into the handler's `default` branch. -/
inductive Frame where
  | trade (data : List RealTimeQuote)
  | error (msg : String)
  | other (ty : String)
deriving DecidableEq

/-- The Quote Store: the `quotes` ref of `App.vue`, a map from symbol to
latest quote, modelled extensionally (JS `Map` lookup semantics; the spec
declares insertion order irrelevant). -/
def QuoteStore := String → Option RealTimeQuote

/-- `quotes.value.set(k, q)`: point update of the store. -/
def setQuote (st : QuoteStore) (k : String) (q : RealTimeQuote) : QuoteStore :=
  fun x => if x = k then some q else st x

/-- The message handler of `App.vue` (`realTimeQuoteResponseHandler`),
as a function of the store it mutates: a trade frame upserts each record
of its data array under the record's own `s` field, in array order; an
error frame is only logged (`console.error`) and the default branch
returns, so neither touches the store. -/
def realTimeQuoteResponseHandler (st : QuoteStore) (f : Frame) : QuoteStore :=
  match f with
  | Frame.trade data => data.foldl (fun m q => setQuote m q.s q) st
  | Frame.error _ => st
  | Frame.other _ => st

/-- The last record of `data` whose symbol field is `k`, if any: the record
that wins the upsert for key `k` when a trade frame is processed. -/
def lastQuoteFor (data : List RealTimeQuote) (k : String) : Option RealTimeQuote :=
  data.foldl (fun acc q => if q.s = k then some q else acc) none

/-- An outbound frame `{type, symbol}` as produced by `JSON.stringify` in
`subscribe` / `unsubscribe`. -/
structure OutFrame where
  ty : String
  symbol : String
deriving DecidableEq

/-- The observable state of the WebSocket held in the `socket` ref: which
listeners are registered and whether `close()` has been called.  `stop`
removes the listeners and closes the socket but never resets the ref to
`undefined`. -/
structure Sock where
  openHandlerOn : Bool
  msgHandlerOn : Bool
  closed : Bool
deriving DecidableEq

/-- The component state the claims are about: the Quote Store, the `socket`
ref (`none` = `undefined`), and the log of frames passed to `send`. -/
structure AppState where
  quotes : QuoteStore
  socket : Option Sock
  sent : List OutFrame

/-- The state before `start` is ever clicked: empty quote map, no socket,
nothing sent. -/
def initialState : AppState :=
  { quotes := fun _ => none, socket := none, sent := [] }

/-- `start(token)`: stores a fresh WebSocket in the ref and registers the
`open` and `message` listeners.  Nothing is sent yet; the subscribe batch
is issued only when the `open` event fires. -/
def start (st : AppState) (_tok : String) : AppState :=
  { st with socket := some { openHandlerOn := true, msgHandlerOn := true, closed := false } }

/-- `stop()`: if the `socket` ref is set, removes both listeners and calls
`close()`; it does not reset the ref and never touches the quote map.  If
the ref is still `undefined` it does nothing. -/
def stop (st : AppState) : AppState :=
  match st.socket with
  | none => st
  | some sk =>
      { st with socket := some { sk with openHandlerOn := false, msgHandlerOn := false, closed := true } }

/-- `subscribe(symbol)`: sends `{type:"subscribe", symbol}` when the
`socket` ref is set, otherwise does nothing at all. -/
def subscribe (st : AppState) (sym : String) : AppState :=
  match st.socket with
  | none => st
  | some _ => { st with sent := st.sent ++ [{ ty := "subscribe", symbol := sym }] }

/-- `unsubscribe(symbol)`: sends `{type:"unsubscribe", symbol}` when the
`socket` ref is set, otherwise does nothing at all. -/
def unsubscribe (st : AppState) (sym : String) : AppState :=
  match st.socket with
  | none => st
  | some _ => { st with sent := st.sent ++ [{ ty := "unsubscribe", symbol := sym }] }

/-- The `open`-event listener `subscribeHandler`: eight `subscribe` calls
for the hardcoded preset list, in source order. -/
def subscribeHandler (st : AppState) : AppState :=
  subscribe (subscribe (subscribe (subscribe (subscribe (subscribe (subscribe (subscribe
    st "AAPL") "GME") "TSLA") "SHOP")
    "BINANCE:BTCUSDT") "BINANCE:ETHUSDT") "BINANCE:ADAUSDT") "BINANCE:SOLUSDT"

/-- The `message`-event listener applied to the component state: only the
quote map can change. -/
def onMessage (st : AppState) (f : Frame) : AppState :=
  { st with quotes := realTimeQuoteResponseHandler st.quotes f }

/-!
`formatSymbol` in `App.vue` is
`symbol.replace(/BINANCE:(?<symbol>.+)USDT/, "$1")`: a non-global,
case-sensitive JavaScript regex replace.  We embed it over `List Char`:
the engine finds the leftmost start position where the literal
`BINANCE:` matches, lets the greedy `.+` consume as many
non-line-terminator characters as possible, backtracks until the literal
`USDT` matches right after the capture, and replaces the whole match by
the capture.  If no position admits a match the string is unchanged.
-/

/-- The literal `BINANCE:` of the regex. -/
def binanceL : List Char := ['B', 'I', 'N', 'A', 'N', 'C', 'E', ':']

/-- The literal `USDT` of the regex. -/
def usdtL : List Char := ['U', 'S', 'D', 'T']

/-- Whether `pat` matches literally at the head of `cs`. -/
def leadsWith : List Char → List Char → Bool
  | [], _ => true
  | _ :: _, [] => false
  | p :: ps, c :: cs => p == c && leadsWith ps cs

/-- Whether `.` (no `s` flag) matches a character: anything but a
JavaScript line terminator. -/
def dotMatches (c : Char) : Bool :=
  !(c == '\n' || c == '\r' || c == '\u2028' || c == '\u2029')

/-- Greedy backtracking of `.+USDT` against `cs`: try the capture
lengths `n, n-1, …, 1` and return the first (i.e. largest) `k` such that
the first `k` characters are all `.`-matchable and `USDT` matches right
after them. -/
def greedyStop : Nat → List Char → Option Nat
  | 0, _ => none
  | k + 1, cs =>
      if (cs.take (k + 1)).all dotMatches && leadsWith usdtL (cs.drop (k + 1)) then
        some (k + 1)
      else greedyStop k cs

/-- One pass of the non-global replace: scan start positions left to
right; at the first position where `BINANCE:(.+)USDT` matches, replace
the whole match by the capture; `none` when no position matches. -/
def replaceFirst : List Char → Option (List Char)
  | [] => none
  | c :: cs =>
      if leadsWith binanceL (c :: cs) then
        match greedyStop ((c :: cs).drop binanceL.length).length ((c :: cs).drop binanceL.length) with
        | some k =>
            some (((c :: cs).drop binanceL.length).take k ++
                  (c :: cs).drop (binanceL.length + k + usdtL.length))
        | none => (replaceFirst cs).map (fun r => c :: r)
      else (replaceFirst cs).map (fun r => c :: r)

/-- `formatSymbol` on character lists. -/
def formatSymbolL (cs : List Char) : List Char :=
  match replaceFirst cs with
  | some r => r
  | none => cs

/-- `formatSymbol(symbol)` of `App.vue`. -/
def formatSymbol (s : String) : String :=
  (formatSymbolL s.toList).asString

/-- Whether `BINANCE:` occurs as a contiguous substring. -/
def containsBinance : List Char → Bool
  | [] => false
  | c :: cs => leadsWith binanceL (c :: cs) || containsBinance cs

/-- `String.prototype.toLowerCase` restricted to its effect on Basic
Latin letters (the only characters the helpers below compare against). -/
def jsToLowerChar (c : Char) : Char :=
  if 65 ≤ c.toNat ∧ c.toNat ≤ 90 then Char.ofNat (c.toNat + 32) else c

/-- Lowercasing of a character list, as `toLowerCase` does per code unit. -/
def jsToLowerL (cs : List Char) : List Char := cs.map jsToLowerChar

/-- `String.prototype.toUpperCase` on Basic Latin letters (used only to
state the uppercase variant the spec talks about). -/
def jsToUpperChar (c : Char) : Char :=
  if 97 ≤ c.toNat ∧ c.toNat ≤ 122 then Char.ofNat (c.toNat - 32) else c

/-- Uppercasing of a character list. -/
def jsToUpperL (cs : List Char) : List Char := cs.map jsToUpperChar

/-- `a` and `b` agree up to letter case. -/
abbrev isCaseVariant (a b : String) : Prop :=
  jsToLowerL a.toList = jsToLowerL b.toList

/-- `faSymbol` of `App.vue`: switch on the lowercased formatted symbol,
`"eth" → "ethereum"`, `"btc" → "btc"`, default `""`. -/
def faSymbol (s : String) : String :=
  if jsToLowerL (formatSymbol s).toList = "eth".toList then "ethereum"
  else if jsToLowerL (formatSymbol s).toList = "btc".toList then "btc"
  else ""

/-- The hardcoded `branded` array of `isBranded`. -/
def brandedList : List String := ["BTC", "ETH"]

/-- `isBranded` of `App.vue`: `branded.includes(formatSymbol(symbol))`
(note: no case folding — the formatted symbol is compared as-is). -/
def isBranded (s : String) : Bool :=
  brandedList.contains (formatSymbol s)

/-- The eight subscribe frames `subscribeHandler` produces, in order. -/
def presetBatch : List OutFrame :=
  [{ ty := "subscribe", symbol := "AAPL" },
   { ty := "subscribe", symbol := "GME" },
   { ty := "subscribe", symbol := "TSLA" },
   { ty := "subscribe", symbol := "SHOP" },
   { ty := "subscribe", symbol := "BINANCE:BTCUSDT" },
   { ty := "subscribe", symbol := "BINANCE:ETHUSDT" },
   { ty := "subscribe", symbol := "BINANCE:ADAUSDT" },
   { ty := "subscribe", symbol := "BINANCE:SOLUSDT" }]

/-- A concrete AAPL quote (the spec's `data:[{s:"AAPL",p:"150.25",v:"10",...}]`). -/
def qA1 : RealTimeQuote :=
  { c := "1", p := "150.25", s := "AAPL", t := "1660000000000", v := "10" }

/-- A later AAPL quote with different price, volume and timestamp. -/
def qA2 : RealTimeQuote :=
  { c := "2", p := "151.00", s := "AAPL", t := "1660000000001", v := "99" }

/-- The component states reachable from the initial state by user actions
(`start`, `stop`, `subscribe`, `unsubscribe`) and socket events (the
`open` listener, a `message` for any parsed frame). -/
inductive Reachable : AppState → Prop where
  | init : Reachable initialState
  | step_start : ∀ st tok, Reachable st → Reachable (start st tok)
  | step_stop : ∀ st, Reachable st → Reachable (stop st)
  | step_sub : ∀ st sym, Reachable st → Reachable (subscribe st sym)
  | step_unsub : ∀ st sym, Reachable st → Reachable (unsubscribe st sym)
  | step_open : ∀ st, Reachable st → Reachable (subscribeHandler st)
  | step_msg : ∀ st f, Reachable st → Reachable (onMessage st f)

/-- Folding `if q.s = k then some q else acc` over a list only ever uses
the accumulator when no record of the list matches `k`. -/
lemma lastQuoteFor_shift (k : String) (rest : List RealTimeQuote)
    (acc : Option RealTimeQuote) :
    rest.foldl (fun a q => if q.s = k then some q else a) acc =
      match rest.foldl (fun a q => if q.s = k then some q else a) none with
      | some x => some x
      | none => acc := by
  induction rest generalizing acc with
  | nil => rfl
  | cons r rest ih =>
    simp only [List.foldl_cons]
    rw [ih (if r.s = k then some r else acc), ih (if r.s = k then some r else none)]
    cases rest.foldl (fun a q => if q.s = k then some q else a) none with
    | some x => rfl
    | none => by_cases hr : r.s = k <;> simp [hr]

/-- Processing a trade frame realizes the last-writer-wins upsert: the
store afterwards holds, at each key, the last record of the frame for
that key, and is untouched at every other key. -/
lemma handler_trade_lookup (st : QuoteStore) (data : List RealTimeQuote)
    (k : String) :
    realTimeQuoteResponseHandler st (Frame.trade data) k =
      match lastQuoteFor data k with
      | some q => some q
      | none => st k := by
  induction data generalizing st with
  | nil => rfl
  | cons q rest ih =>
    have h1 : realTimeQuoteResponseHandler st (Frame.trade (q :: rest)) =
        realTimeQuoteResponseHandler (setQuote st q.s q) (Frame.trade rest) := rfl
    rw [h1, ih]
    have h2 : lastQuoteFor (q :: rest) k =
        match lastQuoteFor rest k with
        | some x => some x
        | none => if q.s = k then some q else none := by
      unfold lastQuoteFor
      simpa using lastQuoteFor_shift k rest (if q.s = k then some q else none)
    rw [h2]
    cases lastQuoteFor rest k with
    | some x => rfl
    | none =>
      show setQuote st q.s q k = _
      by_cases hq : q.s = k
      · simp [setQuote, hq]
      · have hk : ¬(k = q.s) := fun h => hq h.symm
        simp [setQuote, hk, hq]

/-- C1: a `"trade"` frame upserts each record of its data array keyed by
the record's own symbol field `s` (the last record for a key wins, other
keys are untouched), and a later trade record for the same symbol
replaces the stored quote wholesale. -/
theorem trade_upsert_spec :
    (∀ (st : QuoteStore) (data : List RealTimeQuote) (k : String),
        realTimeQuoteResponseHandler st (Frame.trade data) k =
          match lastQuoteFor data k with
          | some q => some q
          | none => st k) ∧
    (∀ (st : QuoteStore) (q q2 : RealTimeQuote), q2.s = q.s →
        realTimeQuoteResponseHandler
            (realTimeQuoteResponseHandler st (Frame.trade [q]))
            (Frame.trade [q2]) q.s = some q2) := by
  constructor
  · exact handler_trade_lookup
  · intro st q q2 h
    rw [handler_trade_lookup]
    simp [lastQuoteFor, h]

/-- Witness for C1: a frame for `AAPL` creates the entry, and a second
frame for the same symbol replaces it with the whole new record. -/
theorem trade_upsert_spec_witness :
    realTimeQuoteResponseHandler
        (realTimeQuoteResponseHandler (fun _ => none) (Frame.trade [qA1]))
        (Frame.trade [qA2]) "AAPL" = some qA2 :=
  trade_upsert_spec.2 (fun _ => none) qA1 qA2 rfl

/-- C2: an `"error"` frame and a frame of any unknown type leave the
Quote Store unchanged; both branches are total (the handler merely logs
or returns), so nothing is thrown to the caller. -/
theorem error_unknown_frames_ignored :
    (∀ (st : QuoteStore) (msg : String),
        realTimeQuoteResponseHandler st (Frame.error msg) = st) ∧
    (∀ (st : QuoteStore) (ty : String),
        realTimeQuoteResponseHandler st (Frame.other ty) = st) :=
  ⟨fun _ _ => rfl, fun _ _ => rfl⟩

/-- C6: `start` itself sends nothing, and the `open` listener then sends
exactly the eight hardcoded subscribe frames, in source order, and no
other frames. -/
theorem open_after_start_sends_preset_batch :
    ∀ (st : AppState) (tok : String),
      (start st tok).sent = st.sent ∧
      (subscribeHandler (start st tok)).sent = (start st tok).sent ++ presetBatch := by
  intro st tok
  constructor
  · rfl
  · simp [subscribeHandler, subscribe, start, presetBatch]

/-- C7: with a socket in the ref, `subscribe`/`unsubscribe` append the
single frame `{type, symbol}` to the send log and change nothing else;
with no socket (`undefined` ref) they do nothing at all — no frame, no
failure. -/
theorem subscribe_unsubscribe_spec :
    ∀ (st : AppState) (sym : String),
      (st.socket ≠ none →
        subscribe st sym =
          { st with sent := st.sent ++ [{ ty := "subscribe", symbol := sym }] } ∧
        unsubscribe st sym =
          { st with sent := st.sent ++ [{ ty := "unsubscribe", symbol := sym }] }) ∧
      (st.socket = none → subscribe st sym = st ∧ unsubscribe st sym = st) := by
  intro st sym
  constructor
  · intro h
    cases hs : st.socket with
    | none => exact absurd hs h
    | some sk => exact ⟨by simp [subscribe, hs], by simp [unsubscribe, hs]⟩
  · intro h
    exact ⟨by simp [subscribe, h], by simp [unsubscribe, h]⟩

/-- Witness for C7: after `start` the subscribe frame is sent; before any
`start` the call is a no-op. -/
theorem subscribe_unsubscribe_spec_witness :
    subscribe (start initialState "TOKEN") "AAPL" =
      { start initialState "TOKEN" with
          sent := [{ ty := "subscribe", symbol := "AAPL" }] } ∧
    subscribe initialState "AAPL" = initialState :=
  ⟨((subscribe_unsubscribe_spec (start initialState "TOKEN") "AAPL").1
      (by simp [start])).1,
   ((subscribe_unsubscribe_spec initialState "AAPL").2 rfl).1⟩

/-- C8: `stop` never touches the Quote Store; with no socket in the ref
it is the identity; and a second `stop` right after a first changes
nothing (the listeners are already removed and the socket closed). -/
theorem stop_spec :
    ∀ st : AppState,
      (stop st).quotes = st.quotes ∧
      (st.socket = none → stop st = st) ∧
      stop (stop st) = stop st := by
  intro st
  refine ⟨?_, ?_, ?_⟩
  · cases hs : st.socket <;> simp [stop, hs]
  · intro h; simp [stop, h]
  · cases hs : st.socket <;> simp [stop, hs]

/-- Witness for C8: `stop` before any `start` is a no-op. -/
theorem stop_spec_witness : stop initialState = initialState :=
  (stop_spec initialState).2.1 rfl

/-- Upserting records under their own symbol field preserves the
"key equals the stored record's `s` field" property of the store. -/
lemma upsert_fold_keys :
    ∀ (data : List RealTimeQuote) (st : QuoteStore),
      (∀ k q, st k = some q → k = q.s) →
      ∀ k q, (data.foldl (fun m r => setQuote m r.s r) st) k = some q → k = q.s := by
  intro data
  induction data with
  | nil => intro st h; exact h
  | cons r rest ih =>
    intro st h k q
    show (rest.foldl (fun m r => setQuote m r.s r) (setQuote st r.s r)) k = some q → _
    refine ih (setQuote st r.s r) ?_ k q
    intro k2 q2 h2
    by_cases he : k2 = r.s
    · have : some r = some q2 := by simpa [setQuote, he] using h2
      cases this
      exact he
    · exact h k2 q2 (by simpa [setQuote, he] using h2)

/-- The message handler preserves the key invariant for every frame. -/
lemma handler_preserves_keys (st : QuoteStore) (f : Frame)
    (h : ∀ k q, st k = some q → k = q.s) :
    ∀ k q, realTimeQuoteResponseHandler st f k = some q → k = q.s := by
  cases f with
  | trade data => exact upsert_fold_keys data st h
  | error msg => exact h
  | other ty => exact h

/-- C10: in every reachable component state, every entry of the Quote
Store is keyed by its own record's symbol field `s`: the only write path
is the trade branch of the message handler, which always uses `quote.s`
as the key, and every other operation leaves the store untouched. -/
theorem quotes_key_matches_symbol :
    ∀ st : AppState, Reachable st →
      ∀ k q, st.quotes k = some q → k = q.s := by
  intro st h
  induction h with
  | init =>
    intro k q hk
    exact absurd hk (by simp [initialState])
  | step_start st tok _ ih => exact ih
  | step_stop st _ ih =>
    intro k q hk
    refine ih k q ?_
    have hq : (stop st).quotes = st.quotes := by
      cases hs : st.socket <;> simp [stop, hs]
    rw [← hq]; exact hk
  | step_sub st sym _ ih =>
    intro k q hk
    refine ih k q ?_
    have hq : (subscribe st sym).quotes = st.quotes := by
      cases hs : st.socket <;> simp [subscribe, hs]
    rw [← hq]; exact hk
  | step_unsub st sym _ ih =>
    intro k q hk
    refine ih k q ?_
    have hq : (unsubscribe st sym).quotes = st.quotes := by
      cases hs : st.socket <;> simp [unsubscribe, hs]
    rw [← hq]; exact hk
  | step_open st _ ih =>
    intro k q hk
    refine ih k q ?_
    have hq : ∀ (st2 : AppState) (sym : String),
        (subscribe st2 sym).quotes = st2.quotes := by
      intro st2 sym; cases hs : st2.socket <;> simp [subscribe, hs]
    rw [← show (subscribeHandler st).quotes = st.quotes by
      simp [subscribeHandler, hq]]
    exact hk
  | step_msg st f _ ih =>
    exact handler_preserves_keys st.quotes f ih

/-- Witness for C10: after one trade frame, the reachable store holds an
entry whose key is the record's own symbol field. -/
theorem quotes_key_matches_symbol_witness : "AAPL" = qA1.s :=
  quotes_key_matches_symbol (onMessage initialState (Frame.trade [qA1]))
    (Reachable.step_msg initialState (Frame.trade [qA1]) Reachable.init)
    "AAPL" qA1 (by decide)

/-- A literal pattern matches at the head of itself followed by anything. -/
lemma leadsWith_append_self (p r : List Char) : leadsWith p (p ++ r) = true := by
  induction p with
  | nil => rfl
  | cons c cs ih => simp [leadsWith, ih]

/-- A literal pattern matches at the head of itself. -/
lemma leadsWith_self (p : List Char) : leadsWith p p = true := by
  have := leadsWith_append_self p []
  simpa using this

/-- A literal pattern cannot match inside a strictly shorter text. -/
lemma leadsWith_short (p cs : List Char) (h : cs.length < p.length) :
    leadsWith p cs = false := by
  induction p generalizing cs with
  | nil => simp at h
  | cons c ps ih =>
    cases cs with
    | nil => rfl
    | cons d ds =>
      simp only [leadsWith]
      have : ds.length < ps.length := by simpa using h
      simp [ih ds this]

/-- `greedyStop` returns the largest capture length that matches: if `k`
matches and every longer candidate up to `n` fails, the search stops at
`k`. -/
lemma greedyStop_max (n : Nat) (cs : List Char) :
    ∀ k : Nat, 1 ≤ k → k ≤ n →
      ((cs.take k).all dotMatches && leadsWith usdtL (cs.drop k)) = true →
      (∀ j, k < j → j ≤ n →
        ((cs.take j).all dotMatches && leadsWith usdtL (cs.drop j)) = false) →
      greedyStop n cs = some k := by
  induction n with
  | zero => intro k h1 h2 _ _; omega
  | succ n ih =>
    intro k h1 h2 hv hmax
    by_cases hk : k = n + 1
    · subst hk
      unfold greedyStop
      rw [if_pos hv]
    · have hkn : k ≤ n := by omega
      unfold greedyStop
      rw [if_neg ?_]
      · exact ih k h1 hkn hv (fun j hj1 hj2 => hmax j hj1 (by omega))
      · rw [hmax (n + 1) (by omega) (by omega)]
        simp

/-- Against a text `xs ++ USDT` with `xs` nonempty and `.`-matchable, the
greedy capture is exactly `xs`: nothing longer leaves room for the
trailing `USDT` literal. -/
lemma greedyStop_on_suffix (xs : List Char) (hne : xs ≠ [])
    (hdot : xs.all dotMatches = true) :
    greedyStop (xs ++ usdtL).length (xs ++ usdtL) = some xs.length := by
  apply greedyStop_max
  · exact Nat.one_le_iff_ne_zero.mpr (by simpa using hne)
  · simp
  · rw [List.take_left, List.drop_left, hdot]
    simp [leadsWith_self]
  · intro j hj1 hj2
    have hlen : ((xs ++ usdtL).drop j).length < usdtL.length := by
      simp only [List.length_drop, List.length_append]
      have : usdtL.length = 4 := rfl
      omega
    rw [leadsWith_short usdtL _ hlen]
    simp

/-- When `BINANCE:` matches at the head and the greedy search succeeds,
the replace rebuilds the string as capture plus the text after the
match. -/
lemma replaceFirst_of_leads (s : List Char) (h : leadsWith binanceL s = true)
    (k : Nat)
    (hg : greedyStop ((s.drop binanceL.length).length) (s.drop binanceL.length) =
      some k) :
    replaceFirst s =
      some ((s.drop binanceL.length).take k ++
            s.drop (binanceL.length + k + usdtL.length)) := by
  cases s with
  | nil => simp [leadsWith, binanceL] at h
  | cons c cs =>
    simp only [replaceFirst]
    rw [if_pos h, hg]

/-- Without a `BINANCE:` substring the regex never matches. -/
lemma replaceFirst_none_of_no_binance (cs : List Char)
    (h : containsBinance cs = false) : replaceFirst cs = none := by
  induction cs with
  | nil => rfl
  | cons c cs ih =>
    simp only [containsBinance, Bool.or_eq_false_iff] at h
    simp [replaceFirst, h.1, ih h.2]

/-- Stripping lemma: on a whole string `BINANCE:` ++ xs ++ `USDT` with
`xs` nonempty and free of line terminators, `formatSymbol` yields `xs`. -/
lemma formatSymbolL_strip (xs : List Char) (hne : xs ≠ [])
    (hdot : xs.all dotMatches = true) :
    formatSymbolL (binanceL ++ (xs ++ usdtL)) = xs := by
  have h1 : leadsWith binanceL (binanceL ++ (xs ++ usdtL)) = true :=
    leadsWith_append_self _ _
  have hd : (binanceL ++ (xs ++ usdtL)).drop binanceL.length = xs ++ usdtL :=
    List.drop_left _ _
  have hg : greedyStop (((binanceL ++ (xs ++ usdtL)).drop binanceL.length).length)
      ((binanceL ++ (xs ++ usdtL)).drop binanceL.length) = some xs.length := by
    rw [hd]; exact greedyStop_on_suffix xs hne hdot
  have hr := replaceFirst_of_leads _ h1 _ hg
  rw [hd] at hr
  have htake : (xs ++ usdtL).take xs.length = xs := List.take_left _ _
  have hdrop : (binanceL ++ (xs ++ usdtL)).drop
      (binanceL.length + xs.length + usdtL.length) = [] := by
    have e : binanceL.length + xs.length + usdtL.length =
        binanceL.length + (xs.length + usdtL.length) := by omega
    rw [e, ← List.drop_drop, hd]
    have : xs.length + usdtL.length = (xs ++ usdtL).length := by simp
    rw [this, List.drop_length]
  rw [htake, hdrop] at hr
  unfold formatSymbolL
  rw [hr]
  simp

/-- C3 (amended): the replace strips only the literal venue prefix
`BINANCE:` — an input `BINANCE:` ++ XXX ++ `USDT` (XXX nonempty, no line
terminators) becomes XXX, and any input without a `BINANCE:` substring is
returned unchanged; in particular `BINANCE:BTCUSDT ↦ BTC` and
`AAPL ↦ AAPL`. -/
theorem formatSymbol_binance_strip :
    (∀ xs : List Char, xs ≠ [] → xs.all dotMatches = true →
        formatSymbolL (binanceL ++ (xs ++ usdtL)) = xs) ∧
    (∀ cs : List Char, containsBinance cs = false → formatSymbolL cs = cs) ∧
    formatSymbol "BINANCE:BTCUSDT" = "BTC" ∧ formatSymbol "AAPL" = "AAPL" := by
  refine ⟨formatSymbolL_strip, ?_, by decide, by decide⟩
  intro cs h
  unfold formatSymbolL
  rw [replaceFirst_none_of_no_binance cs h]

/-- Witness for C3 (amended): the strip at `XXX = BTC` and the identity
on `AAPL`. -/
theorem formatSymbol_binance_strip_witness :
    formatSymbolL (binanceL ++ ("BTC".toList ++ usdtL)) = "BTC".toList ∧
    formatSymbolL ("AAPL".toList) = "AAPL".toList :=
  ⟨formatSymbol_binance_strip.1 "BTC".toList (by decide) (by decide),
   formatSymbol_binance_strip.2.1 "AAPL".toList (by decide)⟩

/-- Counterexample to C3 as stated: the claimed shape quantifies over any
venue prefix ending in `:`, but a `COINBASE:` prefix is not stripped
(the regex names `BINANCE:` literally), and a string that is not of the
claimed shape can still be rewritten (the regex is unanchored, so the
`BINANCE:…USDT` substring of `BINANCE:BTCUSDT-X` is replaced). -/
theorem formatSymbol_claim_counterexample :
    formatSymbol "COINBASE:BTCUSDT" = "COINBASE:BTCUSDT" ∧
    formatSymbol "COINBASE:BTCUSDT" ≠ "BTC" ∧
    formatSymbol "BINANCE:BTCUSDT-X" = "BTC-X" ∧
    formatSymbol "BINANCE:BTCUSDT-X" ≠ "BINANCE:BTCUSDT-X" := by
  refine ⟨by decide, by decide, by decide, by decide⟩

/-- Counterexample to C4 as stated: for the input `"btc"` the formatted,
uppercased symbol is exactly `BTC`, so the claim predicts `true`, but the
code compares without case folding and returns `false`. -/
theorem isBranded_claim_counterexample :
    isBranded "btc" = false ∧
    jsToUpperL (formatSymbol "btc").toList = "BTC".toList := by
  refine ⟨by decide, by decide⟩

/-- C4 (amended): `isBranded` is true iff the formatted symbol is exactly
`"BTC"` or `"ETH"`, case-sensitively (no uppercasing happens); the
claim's examples hold. -/
theorem isBranded_spec :
    (∀ s : String,
      isBranded s = true ↔ formatSymbol s = "BTC" ∨ formatSymbol s = "ETH") ∧
    isBranded "BINANCE:ETHUSDT" = true ∧ isBranded "AAPL" = false := by
  refine ⟨?_, by decide, by decide⟩
  intro s
  simp [isBranded, brandedList, List.contains]

/-- C5: the brand-icon lookup maps any case-variant of `eth` (after
formatting) to `"ethereum"`, any case-variant of `btc` to `"btc"`, and
everything else to the empty string. -/
theorem brand_icon_lookup_spec :
    ∀ s : String,
      (isCaseVariant (formatSymbol s) "eth" → faSymbol s = "ethereum") ∧
      (isCaseVariant (formatSymbol s) "btc" → faSymbol s = "btc") ∧
      (¬ isCaseVariant (formatSymbol s) "eth" →
        ¬ isCaseVariant (formatSymbol s) "btc" → faSymbol s = "") := by
  intro s
  have e1 : jsToLowerL ("eth".toList) = "eth".toList := by decide
  have e2 : jsToLowerL ("btc".toList) = "btc".toList := by decide
  refine ⟨?_, ?_, ?_⟩
  · intro h
    have hc : jsToLowerL (formatSymbol s).toList = "eth".toList := h.trans e1
    unfold faSymbol
    rw [if_pos hc]
  · intro h
    have hc : jsToLowerL (formatSymbol s).toList = "btc".toList := h.trans e2
    have hne : jsToLowerL (formatSymbol s).toList ≠ "eth".toList := by
      rw [hc]; decide
    unfold faSymbol
    rw [if_neg hne, if_pos hc]
  · intro h1 h2
    have hn1 : jsToLowerL (formatSymbol s).toList ≠ "eth".toList :=
      fun he => h1 (he.trans e1.symm)
    have hn2 : jsToLowerL (formatSymbol s).toList ≠ "btc".toList :=
      fun he => h2 (he.trans e2.symm)
    unfold faSymbol
    rw [if_neg hn1, if_neg hn2]

/-- Witness for C5: each of the three branches at a concrete symbol. -/
theorem brand_icon_lookup_spec_witness :
    faSymbol "BINANCE:ETHUSDT" = "ethereum" ∧ faSymbol "btC" = "btc" ∧
    faSymbol "AAPL" = "" :=
  ⟨(brand_icon_lookup_spec "BINANCE:ETHUSDT").1 (by decide),
   (brand_icon_lookup_spec "btC").2.1 (by decide),
   (brand_icon_lookup_spec "AAPL").2.2 (by decide) (by decide)⟩
